import Mathlib

set_option maxRecDepth 100000

/-!
Shallow embedding of the kindavm HID report encoders (src/kindavm/hid.py,
mouse.py, keyboard.py, consumer.py, system.py) and proofs about them.

A HID report is modelled as a `List ℕ` of byte values.  Every encoder
function is modelled as returning the list of reports it writes to the
transport, in write order; a Python `raise` before any write is modelled
as `Except.error`.  Python `bytes([...])` raises `ValueError` when an
entry is outside `range(0, 256)`; this is modelled by `bytesOf`.

The drag interpolation in mouse.py uses IEEE-754 binary64 arithmetic
(Python floats).  That arithmetic is embedded exactly: a binary64 value is
represented by the rational number it denotes, and `fl64` is the
round-to-nearest, ties-to-even rounding of a rational to 53 significant
bits (the inputs that occur here never reach the overflow or subnormal
ranges, so exponent limits do not come into play).
-/

namespace Kindavm

/-- Python `bytes([...])`: every entry must be in `range(0, 256)`,
otherwise `ValueError` is raised (before anything is written). -/
def bytesOf (vals : List ℤ) : Except String (List ℕ) :=
  if ∀ v ∈ vals, 0 ≤ v ∧ v < 256 then .ok (vals.map Int.toNat)
  else .error "bytes must be in range(0, 256)"

/-- Unsigned byte encoding `v & 0xFF` of a (small) signed integer. -/
def toByte (v : ℤ) : ℕ := (v % 256).toNat

/-! ### mouse.py -/

def BUTTON_NONE : ℕ := 0x00

def BUTTON_LEFT : ℕ := 0x01

def BUTTON_RIGHT : ℕ := 0x02

def BUTTON_MIDDLE : ℕ := 0x04

/-- `_clamp_movement`: `max(-127, min(127, value))`. -/
def clamp_movement (value : ℤ) : ℤ := max (-127) (min 127 value)

/-- `_button_to_bits`: dictionary lookup, `ValueError` for an invalid
button name (raised before any report is sent). -/
def button_to_bits (button : String) : Except String ℕ :=
  if button = "left" then .ok BUTTON_LEFT
  else if button = "right" then .ok BUTTON_RIGHT
  else if button = "middle" then .ok BUTTON_MIDDLE
  else .error "Invalid button"

/-- `send_mouse_report`: clamps each axis, converts to unsigned bytes and
builds the 5-byte report `[0x04, buttons, x, y, wheel]`.  `buttons` is a
byte-valued bit mask (every caller in the repository passes 0x00, 0x01,
0x02 or 0x04). -/
def send_mouse_report (buttons : ℕ) (x y wheel : ℤ) : List ℕ :=
  [0x04, buttons, toByte (clamp_movement x), toByte (clamp_movement y),
    toByte (clamp_movement wheel)]

/-- `move`: a single report with buttons=0, wheel=0. -/
def move (x y : ℤ) : List (List ℕ) :=
  [send_mouse_report 0 x y 0]

/-- `click`: resolves the button first (raising on an invalid name before
any write), then sends `count` press/release pairs. -/
def click (button : String) (count : ℕ) : Except String (List (List ℕ)) :=
  (button_to_bits button).map fun bits =>
    (List.replicate count
      [send_mouse_report bits 0 0 0, send_mouse_report 0 0 0 0]).flatten

/-- `scroll`: a single report with buttons=0, x=0, y=0. -/
def scroll (amount : ℤ) : List (List ℕ) :=
  [send_mouse_report 0 0 0 amount]

/-! ### keyboard.py -/

def MOD_NONE : ℕ := 0x00

def MOD_LEFT_SHIFT : ℕ := 0x02

/-- Backslash character. -/
def BSLASH : Char := Char.ofNat 0x5c

/-- Newline character. -/
def NLCHAR : Char := Char.ofNat 0x0a

/-- Tab character. -/
def TABCHAR : Char := Char.ofNat 0x09

/-- Backspace character. -/
def BSCHAR : Char := Char.ofNat 0x08

/-- `KEY_MAP`: character to (keycode, needs_shift).  Entry order follows
the source dictionary literal; the keys are pairwise distinct, so
first-match lookup coincides with Python dict lookup. -/
def KEY_MAP : List (Char × ℕ × Bool) :=
  [(Char.ofNat 0x61, 0x04, false),  -- a
   (Char.ofNat 0x62, 0x05, false),  -- b
   (Char.ofNat 0x63, 0x06, false),  -- c
   (Char.ofNat 0x64, 0x07, false),  -- d
   (Char.ofNat 0x65, 0x08, false),  -- e
   (Char.ofNat 0x66, 0x09, false),  -- f
   (Char.ofNat 0x67, 0x0A, false),  -- g
   (Char.ofNat 0x68, 0x0B, false),  -- h
   (Char.ofNat 0x69, 0x0C, false),  -- i
   (Char.ofNat 0x6A, 0x0D, false),  -- j
   (Char.ofNat 0x6B, 0x0E, false),  -- k
   (Char.ofNat 0x6C, 0x0F, false),  -- l
   (Char.ofNat 0x6D, 0x10, false),  -- m
   (Char.ofNat 0x6E, 0x11, false),  -- n
   (Char.ofNat 0x6F, 0x12, false),  -- o
   (Char.ofNat 0x70, 0x13, false),  -- p
   (Char.ofNat 0x71, 0x14, false),  -- q
   (Char.ofNat 0x72, 0x15, false),  -- r
   (Char.ofNat 0x73, 0x16, false),  -- s
   (Char.ofNat 0x74, 0x17, false),  -- t
   (Char.ofNat 0x75, 0x18, false),  -- u
   (Char.ofNat 0x76, 0x19, false),  -- v
   (Char.ofNat 0x77, 0x1A, false),  -- w
   (Char.ofNat 0x78, 0x1B, false),  -- x
   (Char.ofNat 0x79, 0x1C, false),  -- y
   (Char.ofNat 0x7A, 0x1D, false),  -- z
   (Char.ofNat 0x41, 0x04, true),   -- A
   (Char.ofNat 0x42, 0x05, true),   -- B
   (Char.ofNat 0x43, 0x06, true),   -- C
   (Char.ofNat 0x44, 0x07, true),   -- D
   (Char.ofNat 0x45, 0x08, true),   -- E
   (Char.ofNat 0x46, 0x09, true),   -- F
   (Char.ofNat 0x47, 0x0A, true),   -- G
   (Char.ofNat 0x48, 0x0B, true),   -- H
   (Char.ofNat 0x49, 0x0C, true),   -- I
   (Char.ofNat 0x4A, 0x0D, true),   -- J
   (Char.ofNat 0x4B, 0x0E, true),   -- K
   (Char.ofNat 0x4C, 0x0F, true),   -- L
   (Char.ofNat 0x4D, 0x10, true),   -- M
   (Char.ofNat 0x4E, 0x11, true),   -- N
   (Char.ofNat 0x4F, 0x12, true),   -- O
   (Char.ofNat 0x50, 0x13, true),   -- P
   (Char.ofNat 0x51, 0x14, true),   -- Q
   (Char.ofNat 0x52, 0x15, true),   -- R
   (Char.ofNat 0x53, 0x16, true),   -- S
   (Char.ofNat 0x54, 0x17, true),   -- T
   (Char.ofNat 0x55, 0x18, true),   -- U
   (Char.ofNat 0x56, 0x19, true),   -- V
   (Char.ofNat 0x57, 0x1A, true),   -- W
   (Char.ofNat 0x58, 0x1B, true),   -- X
   (Char.ofNat 0x59, 0x1C, true),   -- Y
   (Char.ofNat 0x5A, 0x1D, true),   -- Z
   (Char.ofNat 0x31, 0x1E, false),  -- 1
   (Char.ofNat 0x32, 0x1F, false),  -- 2
   (Char.ofNat 0x33, 0x20, false),  -- 3
   (Char.ofNat 0x34, 0x21, false),  -- 4
   (Char.ofNat 0x35, 0x22, false),  -- 5
   (Char.ofNat 0x36, 0x23, false),  -- 6
   (Char.ofNat 0x37, 0x24, false),  -- 7
   (Char.ofNat 0x38, 0x25, false),  -- 8
   (Char.ofNat 0x39, 0x26, false),  -- 9
   (Char.ofNat 0x30, 0x27, false),  -- 0
   (Char.ofNat 0x21, 0x1E, true),   -- exclamation mark
   (Char.ofNat 0x40, 0x1F, true),   -- at sign
   (Char.ofNat 0x23, 0x20, true),   -- hash
   (Char.ofNat 0x24, 0x21, true),   -- dollar
   (Char.ofNat 0x25, 0x22, true),   -- percent
   (Char.ofNat 0x5E, 0x23, true),   -- caret
   (Char.ofNat 0x26, 0x24, true),   -- ampersand
   (Char.ofNat 0x2A, 0x25, true),   -- asterisk
   (Char.ofNat 0x28, 0x26, true),   -- left paren
   (Char.ofNat 0x29, 0x27, true),   -- right paren
   (Char.ofNat 0x0A, 0x28, false),  -- newline (Enter)
   (Char.ofNat 0x08, 0x2A, false),  -- backspace
   (Char.ofNat 0x09, 0x2B, false),  -- tab
   (Char.ofNat 0x20, 0x2C, false),  -- space
   (Char.ofNat 0x2D, 0x2D, false),  -- minus
   (Char.ofNat 0x5F, 0x2D, true),   -- underscore
   (Char.ofNat 0x3D, 0x2E, false),  -- equals
   (Char.ofNat 0x2B, 0x2E, true),   -- plus
   (Char.ofNat 0x5B, 0x2F, false),  -- left bracket
   (Char.ofNat 0x7B, 0x2F, true),   -- left brace
   (Char.ofNat 0x5D, 0x30, false),  -- right bracket
   (Char.ofNat 0x7D, 0x30, true),   -- right brace
   (Char.ofNat 0x5C, 0x31, false),  -- backslash
   (Char.ofNat 0x7C, 0x31, true),   -- vertical bar
   (Char.ofNat 0x3B, 0x33, false),  -- semicolon
   (Char.ofNat 0x3A, 0x33, true),   -- colon
   (Char.ofNat 0x27, 0x34, false),  -- single quote
   (Char.ofNat 0x22, 0x34, true),   -- double quote
   (Char.ofNat 0x60, 0x35, false),  -- grave accent
   (Char.ofNat 0x7E, 0x35, true),   -- tilde
   (Char.ofNat 0x2C, 0x36, false),  -- comma
   (Char.ofNat 0x3C, 0x36, true),   -- less than
   (Char.ofNat 0x2E, 0x37, false),  -- period
   (Char.ofNat 0x3E, 0x37, true),   -- greater than
   (Char.ofNat 0x2F, 0x38, false),  -- slash
   (Char.ofNat 0x3F, 0x38, true)]   -- question mark

/-- Python `char in KEY_MAP` / `KEY_MAP[char]` (keys are distinct, so the
first match is the only match). -/
def keyMapLookup (c : Char) : Option (ℕ × Bool) :=
  (KEY_MAP.find? (fun e => e.1 == c)).map (fun e => e.2)

/-- `send_key`: builds and sends the 9-byte press report
`[0x01, modifier, 0x00, keycode, 0, 0, 0, 0, 0]`, then the all-zero
release report.  `bytes` raises (before the press write) when `keycode`
or `modifier` is outside the byte range. -/
def send_key (keycode modifier : ℤ) : Except String (List (List ℕ)) := do
  let press ← bytesOf [0x01, modifier, 0x00, keycode, 0, 0, 0, 0, 0]
  let release ← bytesOf [0x01, 0, 0, 0, 0, 0, 0, 0, 0]
  pure [press, release]

/-- Fuel-driven worker for `replace2`; the fuel only forces structural
recursion and is immaterial once it is at least the list length
(see `replace2F_congr`). -/
def replace2F (p q r : Char) : ℕ → List Char → List Char
  | 0, l => l
  | _ + 1, [] => []
  | _ + 1, [a] => [a]
  | fuel + 1, a :: b :: rest =>
    if a = p ∧ b = q then r :: replace2F p q r fuel rest
    else a :: replace2F p q r fuel (b :: rest)

/-- Python `str.replace` specialised to a two-character pattern `p, q`
replaced by the single character `r`: leftmost-first, non-overlapping,
scanning resumes after each replacement. -/
def replace2 (p q r : Char) (l : List Char) : List Char :=
  replace2F p q r l.length l

/-- The escape pre-pass of `type_string`:
`text.replace("\\n", "\n").replace("\\t", "\t").replace("\\b", "\b")`. -/
def process_escapes (text : List Char) : List Char :=
  replace2 BSLASH (Char.ofNat 0x62) BSCHAR
    (replace2 BSLASH (Char.ofNat 0x74) TABCHAR
      (replace2 BSLASH (Char.ofNat 0x6e) NLCHAR text))

/-- An observable event of `type_string`: either the skipped-character
warning printed to stderr, or a report written to the transport. -/
inductive TypeEvent where
  | warning (c : Char) : TypeEvent
  | sent (r : List ℕ) : TypeEvent
deriving DecidableEq

/-- The character loop of `type_string`, producing its events in order.
An unmapped character yields a warning and the loop continues; a mapped
character is sent through `send_key` (whose exception would propagate). -/
def type_string_loop : List Char → Except String (List TypeEvent)
  | [] => .ok []
  | c :: rest =>
    match keyMapLookup c with
    | none => (type_string_loop rest).map (fun evs => TypeEvent.warning c :: evs)
    | some (kc, needs) => do
      let reports ← send_key (kc : ℤ)
        ((if needs then MOD_LEFT_SHIFT else MOD_NONE : ℕ) : ℤ)
      let restEvents ← type_string_loop rest
      pure (reports.map TypeEvent.sent ++ restEvents)

/-- `type_string`: escape substitution pre-pass, then the character loop. -/
def type_string (text : List Char) : Except String (List TypeEvent) :=
  type_string_loop (process_escapes text)

/-! ### IEEE-754 binary64 arithmetic, embedded exactly over ℚ

A finite binary64 value is represented by the rational it denotes.
`fl64 q` is `q` rounded to the nearest rational of the form `m · 2^e`
with `|m| < 2^53` (ties to even), which is exactly what every Python
float operation produces for operands and results in the normal range
(no overflow and no subnormals occur for any input used below: all
magnitudes stay well inside the normal range). -/

/-- Fuel-driven base-2 logarithm on ℕ (kernel-computable; equals
`Nat.log2`, see `natLog2_eq_log2`). -/
def natLog2F : ℕ → ℕ → ℕ
  | 0, _ => 0
  | fuel + 1, n => if n ≤ 1 then 0 else natLog2F fuel (n / 2) + 1

/-- Base-2 logarithm on ℕ, rounded down. -/
def natLog2 (n : ℕ) : ℕ := natLog2F n n

/-- Multiplication by an integer power of two: `qscale q k = q * 2 ^ k`
(see `qscale_eq`), written through `mkRat` so that it kernel-reduces. -/
def qscale (q : ℚ) (k : ℤ) : ℚ :=
  if 0 ≤ k then mkRat (q.num * 2 ^ k.toNat) q.den
  else mkRat q.num (q.den * 2 ^ (-k).toNat)

/-- Rational multiplication through `mkRat` (see `qmul_eq`). -/
def qmul (a b : ℚ) : ℚ := mkRat (a.num * b.num) (a.den * b.den)

/-- Absolute value on ℚ through `mkRat` (see `qabs_eq`). -/
def qabs (q : ℚ) : ℚ := mkRat q.num.natAbs q.den

/-- First candidate for the floor base-2 logarithm of a positive
rational: the true value is either this or one less. -/
def floorLog2Cand (q : ℚ) : ℤ :=
  (natLog2 q.num.natAbs : ℤ) - (natLog2 q.den : ℤ)

/-- Floor of the base-2 logarithm of a positive rational: the unique `c`
with `2 ^ c ≤ q < 2 ^ (c + 1)` (see `floorLog2_spec`).  The condition
`qscale 1 c ≤ q` says `2 ^ c ≤ q`. -/
def floorLog2 (q : ℚ) : ℤ :=
  if qscale 1 (floorLog2Cand q) ≤ q then floorLog2Cand q
  else floorLog2Cand q - 1

/-- Round a rational to the nearest integer, ties to even.  The value
`mkRat (q.num - ⌊q⌋ * q.den) q.den` is the fractional part `q - ⌊q⌋`. -/
def rne (q : ℚ) : ℤ :=
  let f := ⌊q⌋
  let r := mkRat (q.num - f * q.den) q.den
  if r < mkRat 1 2 then f
  else if mkRat 1 2 < r then f + 1
  else if 2 ∣ f then f else f + 1

/-- Round a rational to the nearest binary64 value: scale `q` so that its
magnitude lies in `[2^52, 2^53)`, round that to the nearest integer with
ties to even, and scale back. -/
def fl64 (q : ℚ) : ℚ :=
  if q = 0 then 0
  else (qscale (rne (qscale q (52 - floorLog2 (qabs q))) : ℚ)
    (floorLog2 (qabs q) - 52))

/-- Python `int(f)` on a float: truncation toward zero. -/
def floatTrunc (q : ℚ) : ℤ :=
  if 0 ≤ q then ⌊q⌋ else ⌈q⌉

/-- The float `x / steps` computed by `drag`: Python true division of two
ints is the correctly rounded binary64 quotient, and
`mkRat a steps = (a : ℚ) / (steps : ℚ)`. -/
def dragStepRatio (a : ℤ) (steps : ℕ) : ℚ :=
  fl64 (mkRat a steps)

/-- The per-step delta `int((i + 1) * a_step) - int(i * a_step)` computed
by `drag` for one axis: each Python `int * float` product converts the
int to binary64 and then performs one correctly rounded multiplication. -/
def dragStepFloat (a : ℤ) (steps : ℕ) (i : ℕ) : ℤ :=
  floatTrunc (fl64 (qmul (fl64 ((i + 1 : ℕ) : ℚ)) (dragStepRatio a steps))) -
    floatTrunc (fl64 (qmul (fl64 ((i : ℕ) : ℚ)) (dragStepRatio a steps)))

/-- The step count of `drag`: `max(abs(x), abs(y))`, bumped to 1 when it
is zero. -/
def dragSteps (x y : ℤ) : ℕ :=
  let s := max x.natAbs y.natAbs
  if s = 0 then 1 else s

/-- The per-axis delta sequence of `drag`, one entry per move report. -/
def dragDeltas (a : ℤ) (steps : ℕ) : List ℤ :=
  (List.range steps).map (dragStepFloat a steps)

/-- `drag`: resolves the button (raising before any write on an invalid
name), sends the press report, then one move report per step carrying the
held button bits and the two per-axis deltas, then the release report. -/
def drag (x y : ℤ) (button : String) : Except String (List (List ℕ)) :=
  (button_to_bits button).map fun bits =>
    let steps := dragSteps x y
    [send_mouse_report bits 0 0 0] ++
      ((List.range steps).map fun i =>
        send_mouse_report bits (dragStepFloat x steps i)
          (dragStepFloat y steps i) 0) ++
      [send_mouse_report 0 0 0 0]

/-! ### Specification-side models

These definitions follow the spec text, not the source; they exist to be
compared against the code-derived definitions above. -/

/-- Modelled from the spec: the per-step delta formula
`round(a*(i+1)/steps) - round(a*i/steps)` read with truncating integer
division semantics (truncation toward zero, as `Int.tdiv`). -/
def dragStepSpec (a : ℤ) (steps : ℕ) (i : ℕ) : ℤ :=
  Int.tdiv (((i : ℤ) + 1) * a) steps - Int.tdiv ((i : ℤ) * a) steps

/-- Modelled from the spec: a single left-to-right, non-overlapping pass
substituting the two-character escapes backslash-n, backslash-t and
backslash-b, each exactly once. -/
def substEscapesSpec : List Char → List Char
  | [] => []
  | [a] => [a]
  | a :: b :: rest =>
    if a = BSLASH ∧ b = Char.ofNat 0x6e then NLCHAR :: substEscapesSpec rest
    else if a = BSLASH ∧ b = Char.ofNat 0x74 then TABCHAR :: substEscapesSpec rest
    else if a = BSLASH ∧ b = Char.ofNat 0x62 then BSCHAR :: substEscapesSpec rest
    else a :: substEscapesSpec (b :: rest)
termination_by l => l.length

/-- The events `type_string` produces for one (post-substitution)
character: a warning for an unmapped character, otherwise the press and
release reports of `send_key` with the mapped keycode and modifier. -/
def charEvents (c : Char) : List TypeEvent :=
  match keyMapLookup c with
  | none => [.warning c]
  | some (kc, needs) =>
    [.sent [0x01, if needs then MOD_LEFT_SHIFT else MOD_NONE, 0x00, kc, 0, 0, 0, 0, 0],
     .sent [0x01, 0, 0, 0, 0, 0, 0, 0, 0]]

/-- Number of set bits among the low 8 bits of a byte value. -/
def popCount8 (n : ℕ) : ℕ :=
  (List.range 8).countP (fun k => n.testBit k)

/-! ### consumer.py -/

def VOLUME_UP : ℕ := 0x01

def VOLUME_DOWN : ℕ := 0x02

def MUTE : ℕ := 0x04

def PLAY_PAUSE : ℕ := 0x08

def NEXT_TRACK : ℕ := 0x10

def PREV_TRACK : ℕ := 0x20

def STOP : ℕ := 0x40

def BRIGHTNESS_UP : ℕ := 0x01

def BRIGHTNESS_DOWN : ℕ := 0x02

def EJECT : ℕ := 0x01

/-- `send_consumer_key`: the 4-byte press report `[0x02, b1, b2, b3]`
followed by the all-zero release report of the same length.  Every named
action passes single-bit byte constants. -/
def send_consumer_key (byte1 byte2 byte3 : ℕ) : List (List ℕ) :=
  [[0x02, byte1, byte2, byte3], [0x02, 0, 0, 0]]

def volume_up : List (List ℕ) := send_consumer_key VOLUME_UP 0 0

def volume_down : List (List ℕ) := send_consumer_key VOLUME_DOWN 0 0

def mute : List (List ℕ) := send_consumer_key MUTE 0 0

def play_pause : List (List ℕ) := send_consumer_key PLAY_PAUSE 0 0

def next_track : List (List ℕ) := send_consumer_key NEXT_TRACK 0 0

def prev_track : List (List ℕ) := send_consumer_key PREV_TRACK 0 0

def stop_playback : List (List ℕ) := send_consumer_key STOP 0 0

def brightness_up : List (List ℕ) := send_consumer_key 0 BRIGHTNESS_UP 0

def brightness_down : List (List ℕ) := send_consumer_key 0 BRIGHTNESS_DOWN 0

def eject : List (List ℕ) := send_consumer_key 0 0 EJECT

/-! ### system.py -/

def POWER : ℕ := 0x01

def SLEEP : ℕ := 0x02

def WAKE : ℕ := 0x04

/-- `send_system_key`: the 2-byte press report `[0x03, buttons]` followed
by the all-zero release report of the same length. -/
def send_system_key (buttons : ℕ) : List (List ℕ) :=
  [[0x03, buttons], [0x03, 0]]

def power : List (List ℕ) := send_system_key POWER

def sleep_key : List (List ℕ) := send_system_key SLEEP

def wake : List (List ℕ) := send_system_key WAKE

/-! ## Bridge lemmas for the computable rational primitives -/

theorem natLog2F_eq (fuel n : ℕ) (h : n ≤ fuel) : natLog2F fuel n = Nat.log2 n := by
  induction fuel generalizing n with
  | zero =>
    have hn : n = 0 := by omega
    subst hn
    rw [Nat.log2]
    rfl
  | succ fuel ih =>
    rw [Nat.log2]
    show (if n ≤ 1 then 0 else natLog2F fuel (n / 2) + 1) = _
    by_cases h2 : n ≤ 1
    · have : ¬ n ≥ 2 := by omega
      simp [h2, this]
    · have hge : n ≥ 2 := by omega
      have hdiv : n / 2 ≤ fuel := by
        have := Nat.div_lt_self (show 0 < n by omega) (show 1 < 2 by omega)
        omega
      simp [h2, hge, ih (n / 2) hdiv]

theorem natLog2_eq_log2 (n : ℕ) : natLog2 n = Nat.log2 n :=
  natLog2F_eq n n le_rfl

theorem qscale_eq (q : ℚ) (k : ℤ) : qscale q k = q * 2 ^ k := by
  unfold qscale
  split
  · rename_i hk
    rw [Rat.mkRat_eq_div]
    push_cast
    rw [mul_div_right_comm, Rat.num_div_den]
    congr 1
    rw [← zpow_natCast (2 : ℚ) k.toNat, Int.toNat_of_nonneg hk]
  · rename_i hk
    rw [Rat.mkRat_eq_div]
    push_cast
    rw [← div_div, Rat.num_div_den]
    rw [← zpow_natCast (2 : ℚ) (-k).toNat, Int.toNat_of_nonneg (by omega : 0 ≤ -k)]
    rw [div_eq_mul_inv, ← zpow_neg, neg_neg]

theorem qmul_eq (a b : ℚ) : qmul a b = a * b := by
  unfold qmul
  rw [Rat.mkRat_eq_div]
  push_cast
  rw [← div_mul_div_comm, Rat.num_div_den, Rat.num_div_den]

theorem qabs_eq (q : ℚ) : qabs q = |q| := by
  unfold qabs
  rcases le_or_lt 0 q.num with h | h
  · rw [Int.natAbs_of_nonneg h, Rat.mkRat_self, abs_of_nonneg]
    rwa [← Rat.num_nonneg]
  · have : (q.num.natAbs : ℤ) = -q.num := Int.ofNat_natAbs_of_nonpos (le_of_lt h)
    rw [this, ← Rat.neg_mkRat, Rat.mkRat_self, abs_of_neg]
    by_contra hq
    push_neg at hq
    exact absurd (Rat.num_nonneg.mpr hq) (by omega)

theorem floatTrunc_intCast (n : ℤ) : floatTrunc (n : ℚ) = n := by
  unfold floatTrunc
  split <;> simp

theorem rne_intCast (m : ℤ) : rne ((m : ℤ) : ℚ) = m := by
  unfold rne
  have hnum : ((m : ℚ)).num = m := Rat.num_intCast m
  have hden : ((m : ℚ)).den = 1 := Rat.den_intCast m
  simp only [Int.floor_intCast, hnum, hden]
  norm_num

theorem zpow_natSub (a b : ℕ) :
    (2 : ℚ) ^ ((a : ℤ) - (b : ℤ)) = (2 : ℚ) ^ a / (2 : ℚ) ^ b := by
  rw [zpow_sub₀ two_ne_zero, zpow_natCast, zpow_natCast]

theorem floorLog2_spec (q : ℚ) (hq : 0 < q) :
    (2 : ℚ) ^ floorLog2 q ≤ q ∧ q < (2 : ℚ) ^ (floorLog2 q + 1) := by
  have hdpos : 0 < q.den := q.pos
  have hnum : 0 < q.num := Rat.num_pos.mpr hq
  have hn : q.num.natAbs ≠ 0 := by omega
  have hd : q.den ≠ 0 := by omega
  set L := Nat.log2 q.num.natAbs with hL
  set M := Nat.log2 q.den with hM
  have hL1 : 2 ^ L ≤ q.num.natAbs := Nat.log2_self_le hn
  have hL2 : q.num.natAbs < 2 ^ (L + 1) := Nat.lt_log2_self
  have hM1 : 2 ^ M ≤ q.den := Nat.log2_self_le hd
  have hM2 : q.den < 2 ^ (M + 1) := Nat.lt_log2_self
  have hq_eq : q = (q.num.natAbs : ℚ) / (q.den : ℚ) := by
    conv_lhs => rw [← Rat.num_div_den q]
    congr 1
    rw [Int.cast_natAbs]
    norm_cast
    exact (abs_of_nonneg (le_of_lt hnum)).symm
  have hkey1 : q < (2 : ℚ) ^ (((L : ℤ) - M) + 1) := by
    have harith : (((L : ℤ) - M) + 1) = ((L + 1 : ℕ) : ℤ) - (M : ℤ) := by push_cast; ring
    rw [harith, zpow_natSub, hq_eq]
    rw [div_lt_div_iff₀ (by positivity) (by positivity)]
    have hnat : q.num.natAbs * 2 ^ M < 2 ^ (L + 1) * q.den :=
      lt_of_lt_of_le (mul_lt_mul_of_pos_right hL2 (by positivity))
        (mul_le_mul_left' hM1 _)
    exact_mod_cast hnat
  have hkey2 : (2 : ℚ) ^ (((L : ℤ) - M) - 1) < q := by
    have harith : (((L : ℤ) - M) - 1) = ((L : ℕ) : ℤ) - ((M + 1 : ℕ) : ℤ) := by
      push_cast; ring
    rw [harith, zpow_natSub, hq_eq]
    rw [div_lt_div_iff₀ (by positivity) (by positivity)]
    have hnat : 2 ^ L * q.den < q.num.natAbs * 2 ^ (M + 1) :=
      lt_of_lt_of_le (mul_lt_mul_of_pos_left hM2 (by positivity))
        (mul_le_mul_right' hL1 _)
    exact_mod_cast hnat
  unfold floorLog2 floorLog2Cand
  rw [qscale_eq, one_mul, natLog2_eq_log2, natLog2_eq_log2, ← hL, ← hM]
  split
  · rename_i hcond
    exact ⟨hcond, hkey1⟩
  · rename_i hcond
    constructor
    · exact le_of_lt hkey2
    · rw [sub_add_cancel]
      exact lt_of_not_le hcond

theorem floorLog2_unique (q : ℚ) (c : ℤ) (h1 : (2 : ℚ) ^ c ≤ q)
    (h2 : q < (2 : ℚ) ^ (c + 1)) : floorLog2 q = c := by
  have hq : 0 < q := lt_of_lt_of_le (zpow_pos (by norm_num) c) h1
  obtain ⟨l1, l2⟩ := floorLog2_spec q hq
  by_contra hne
  rcases lt_or_gt_of_ne hne with hlt | hgt
  · have : (2 : ℚ) ^ (floorLog2 q + 1) ≤ (2 : ℚ) ^ c :=
      zpow_le_zpow_right₀ (by norm_num) (by omega)
    linarith
  · have : (2 : ℚ) ^ (c + 1) ≤ (2 : ℚ) ^ floorLog2 q :=
      zpow_le_zpow_right₀ (by norm_num) (by omega)
    linarith

theorem fl64_exact (m e : ℤ) (hm : m ≠ 0) (hlt : m.natAbs < 2 ^ 53) :
    fl64 ((m : ℚ) * 2 ^ e) = (m : ℚ) * 2 ^ e := by
  have hq0 : (m : ℚ) * 2 ^ e ≠ 0 :=
    mul_ne_zero (Int.cast_ne_zero.mpr hm) (zpow_ne_zero _ two_ne_zero)
  set k : ℕ := Nat.log2 m.natAbs with hk
  have hkabs1 : 2 ^ k ≤ m.natAbs := Nat.log2_self_le (by omega)
  have hkabs2 : m.natAbs < 2 ^ (k + 1) := Nat.lt_log2_self
  have habs : |(m : ℚ) * 2 ^ e| = (m.natAbs : ℚ) * 2 ^ e := by
    rw [abs_mul, abs_of_pos (zpow_pos (by norm_num : (0 : ℚ) < 2) e),
      Int.cast_natAbs]
    push_cast
    ring
  have hfl : floorLog2 |(m : ℚ) * 2 ^ e| = (k : ℤ) + e := by
    apply floorLog2_unique
    · rw [habs, zpow_add₀ two_ne_zero, zpow_natCast]
      have : ((2 ^ k : ℕ) : ℚ) ≤ (m.natAbs : ℚ) := by exact_mod_cast hkabs1
      push_cast at this ⊢
      exact mul_le_mul_of_nonneg_right this (le_of_lt (zpow_pos (by norm_num) e))
    · rw [habs]
      have harith : ((k : ℤ) + e + 1) = ((k + 1 : ℕ) : ℤ) + e := by push_cast; ring
      rw [harith, zpow_add₀ two_ne_zero, zpow_natCast]
      have : (m.natAbs : ℚ) < ((2 ^ (k + 1) : ℕ) : ℚ) := by exact_mod_cast hkabs2
      push_cast at this ⊢
      exact mul_lt_mul_of_pos_right this (zpow_pos (by norm_num) e)
  have hk52 : k ≤ 52 := by
    have h53 : k < 53 := (Nat.log2_lt (by omega)).mpr hlt
    omega
  rw [fl64, if_neg hq0, qabs_eq, hfl]
  have hscale1 : qscale ((m : ℚ) * 2 ^ e) (52 - ((k : ℤ) + e)) =
      ((m * 2 ^ (52 - k) : ℤ) : ℚ) := by
    have hexp : e + (52 - ((k : ℤ) + e)) = ((52 - k : ℕ) : ℤ) := by
      rw [Nat.cast_sub hk52]
      omega
    rw [qscale_eq, mul_assoc, ← zpow_add₀ two_ne_zero, hexp, zpow_natCast]
    push_cast
    ring
  rw [hscale1, rne_intCast, qscale_eq]
  have hexp2 : ((52 - k : ℕ) : ℤ) + ((k : ℤ) + e - 52) = e := by
    rw [Nat.cast_sub hk52]
    omega
  push_cast
  rw [mul_assoc, ← zpow_natCast (2 : ℚ) (52 - k), ← zpow_add₀ two_ne_zero, hexp2]

theorem fl64_intCast (n : ℤ) (h : n.natAbs ≤ 2 ^ 53) : fl64 ((n : ℤ) : ℚ) = n := by
  rcases eq_or_ne n 0 with rfl | hn
  · simp [fl64]
  rcases lt_or_eq_of_le h with hlt | heq
  · have := fl64_exact n 0 hn hlt
    simpa using this
  · rcases Int.natAbs_eq n with h1 | h1
    · have hn_eq : (n : ℚ) = ((2 ^ 52 : ℤ) : ℚ) * 2 ^ (1 : ℤ) := by
        rw [h1, heq]
        push_cast [zpow_one]
        ring
      rw [hn_eq, fl64_exact (2 ^ 52) 1 (by norm_num) (by norm_num), ← hn_eq]
    · have hn_eq : (n : ℚ) = ((-(2 ^ 52) : ℤ) : ℚ) * 2 ^ (1 : ℤ) := by
        rw [h1, heq]
        push_cast [zpow_one]
        ring
      rw [hn_eq, fl64_exact (-(2 ^ 52)) 1 (by norm_num) (by norm_num), ← hn_eq]

theorem fl64_natCast (i : ℕ) (h : i ≤ 2 ^ 53) : fl64 ((i : ℕ) : ℚ) = i := by
  have hcast : ((i : ℕ) : ℚ) = (((i : ℕ) : ℤ) : ℚ) := by push_cast; ring
  have habs : ((i : ℕ) : ℤ).natAbs ≤ 2 ^ 53 := by
    rw [Int.natAbs_ofNat]
    exact h
  rw [hcast, fl64_intCast _ habs]

theorem floatTrunc_natCast (i : ℕ) : floatTrunc ((i : ℕ) : ℚ) = i := by
  have hcast : ((i : ℕ) : ℚ) = (((i : ℕ) : ℤ) : ℚ) := by push_cast; ring
  rw [hcast, floatTrunc_intCast]

theorem range_map_sub_sum (f : ℕ → ℤ) (n : ℕ) :
    ((List.range n).map fun i => f (i + 1) - f i).sum = f n - f 0 := by
  induction n with
  | zero => simp
  | succ n ih =>
    rw [List.range_succ, List.map_append, List.sum_append]
    simp [ih]

theorem dragStepSpec_sum (a : ℤ) (s : ℕ) (hs : 0 < s) :
    ((List.range s).map (dragStepSpec a s)).sum = a := by
  have hfun : dragStepSpec a s = fun i =>
      (fun j : ℕ => Int.tdiv ((j : ℤ) * a) s) (i + 1) -
      (fun j : ℕ => Int.tdiv ((j : ℤ) * a) s) i := by
    funext i
    unfold dragStepSpec
    push_cast
    ring_nf
  rw [hfun, range_map_sub_sum (fun j : ℕ => Int.tdiv ((j : ℤ) * a) s) s]
  simp only [Nat.cast_zero, zero_mul, Int.zero_tdiv, sub_zero]
  rw [mul_comm]
  exact Int.mul_tdiv_cancel _
    (show ((s : ℕ) : ℤ) ≠ 0 by exact_mod_cast Nat.pos_iff_ne_zero.mp hs)

theorem dragStepFloat_dominant (a : ℤ) (s : ℕ) (i : ℕ)
    (habs : a.natAbs = s) (hs53 : s ≤ 2 ^ 53) (hi : i < s) :
    dragStepFloat a s i = dragStepSpec a s i := by
  have hs : 0 < s := by omega
  have hsz : (s : ℤ) ≠ 0 := by exact_mod_cast Nat.pos_iff_ne_zero.mp hs
  have hsq : ((s : ℕ) : ℚ) ≠ 0 := by exact_mod_cast Nat.pos_iff_ne_zero.mp hs
  have hi1 : i + 1 ≤ 2 ^ 53 := by omega
  have hi0 : i ≤ 2 ^ 53 := by omega
  rcases Int.natAbs_eq a with h1 | h1
  · have ha : a = (s : ℤ) := by rw [h1, habs]
    subst ha
    have hratio : dragStepRatio (s : ℤ) s = 1 := by
      unfold dragStepRatio
      rw [Rat.mkRat_eq_div]
      push_cast
      rw [div_self hsq]
      have := fl64_natCast 1 (by norm_num)
      simpa using this
    unfold dragStepFloat
    rw [hratio, fl64_natCast (i + 1) hi1, fl64_natCast i hi0]
    rw [qmul_eq, qmul_eq, mul_one, mul_one,
      fl64_natCast (i + 1) hi1, fl64_natCast i hi0,
      floatTrunc_natCast, floatTrunc_natCast]
    unfold dragStepSpec
    rw [Int.mul_tdiv_cancel _ hsz, Int.mul_tdiv_cancel _ hsz]
    push_cast
    ring
  · have ha : a = -(s : ℤ) := by rw [h1, habs]
    subst ha
    have hratio : dragStepRatio (-(s : ℤ)) s = -1 := by
      unfold dragStepRatio
      rw [Rat.mkRat_eq_div]
      push_cast
      rw [neg_div, div_self hsq]
      have := fl64_intCast (-1) (by norm_num)
      simpa using this
    unfold dragStepFloat
    rw [hratio, fl64_natCast (i + 1) hi1, fl64_natCast i hi0]
    rw [qmul_eq, qmul_eq, mul_neg_one, mul_neg_one]
    have hneg : ∀ j : ℕ, j ≤ 2 ^ 53 →
        floatTrunc (fl64 (-((j : ℕ) : ℚ))) = -(j : ℤ) := by
      intro j hj
      have hc : -((j : ℕ) : ℚ) = ((-(j : ℤ) : ℤ) : ℚ) := by push_cast; ring
      rw [hc, fl64_intCast (-(j : ℤ)) (by simpa using hj), floatTrunc_intCast]
    rw [hneg (i + 1) hi1, hneg i hi0]
    unfold dragStepSpec
    have e1 : ((i : ℤ) + 1) * -(s : ℤ) = (-((i : ℤ) + 1)) * s := by ring
    have e2 : (i : ℤ) * -(s : ℤ) = (-(i : ℤ)) * s := by ring
    rw [e1, e2, Int.mul_tdiv_cancel _ hsz, Int.mul_tdiv_cancel _ hsz]
    push_cast
    ring

theorem drag_move_report (x y : ℤ) (button : String) (bits : ℕ)
    (hb : button_to_bits button = .ok bits) (i : ℕ) (hi : i < dragSteps x y) :
    (drag x y button).toOption.bind (fun l => l[i + 1]?) =
      some (send_mouse_report bits (dragStepFloat x (dragSteps x y) i)
        (dragStepFloat y (dragSteps x y) i) 0) := by
  unfold drag
  rw [hb]
  simp only [Except.map, Except.toOption, Option.some_bind]
  simp only [List.singleton_append]
  rw [List.getElem?_append_left (by simp; omega)]
  simp only [List.getElem?_cons_succ]
  simp [List.getElem?_range hi]

theorem keyMap_byte (c : Char) (kc : ℕ) (sh : Bool)
    (h : keyMapLookup c = some (kc, sh)) : kc < 256 := by
  unfold keyMapLookup at h
  cases hfind : KEY_MAP.find? (fun e => e.1 == c) with
  | none => rw [hfind] at h; simp at h
  | some e =>
    rw [hfind] at h
    have h2 : e.2 = (kc, sh) := by injection h
    have hmem : e ∈ KEY_MAP := List.mem_of_find?_eq_some hfind
    have hall : ∀ e ∈ KEY_MAP, e.2.1 < 256 := by decide
    have hbound := hall e hmem
    simpa [h2] using hbound

theorem send_key_ok (kc m : ℕ) (hkc : kc < 256) (hm : m < 256) :
    send_key (kc : ℤ) (m : ℤ) = .ok
      [[0x01, m, 0x00, kc, 0, 0, 0, 0, 0], [0x01, 0, 0, 0, 0, 0, 0, 0, 0]] := by
  have hcond : ∀ v ∈ [(0x01 : ℤ), (m : ℤ), 0x00, (kc : ℤ), 0, 0, 0, 0, 0],
      0 ≤ v ∧ v < 256 := by
    intro v hv
    simp only [List.mem_cons, List.not_mem_nil, or_false] at hv
    rcases hv with rfl | rfl | rfl | rfl | rfl | rfl | rfl | rfl | rfl <;>
      constructor <;> omega
  have hcond2 : ∀ v ∈ [(0x01 : ℤ), 0, 0, 0, 0, 0, 0, 0, 0],
      0 ≤ v ∧ v < 256 := by decide
  simp only [send_key, bytesOf, if_pos hcond, if_pos hcond2]
  rfl

theorem type_string_loop_eq (l : List Char) :
    type_string_loop l = .ok (l.flatMap charEvents) := by
  induction l with
  | nil => simp [type_string_loop]
  | cons c rest ih =>
    unfold type_string_loop
    cases hc : keyMapLookup c with
    | none =>
      rw [ih]
      simp [charEvents, hc, Except.map]
    | some p =>
      obtain ⟨kc, needs⟩ := p
      have hkc : kc < 256 := keyMap_byte c kc needs hc
      have hmod : (if needs then MOD_LEFT_SHIFT else MOD_NONE) < 256 := by
        cases needs <;> decide
      dsimp only
      rw [send_key_ok kc _ hkc hmod, ih]
      simp [charEvents, hc]
      rfl

theorem replace2F_congr (p q r : Char) :
    ∀ (f₁ f₂ : ℕ) (l : List Char), l.length ≤ f₁ → l.length ≤ f₂ →
      replace2F p q r f₁ l = replace2F p q r f₂ l := by
  intro f₁
  induction f₁ with
  | zero =>
    intro f₂ l h1 h2
    have hnil : l = [] := List.length_eq_zero.mp (by omega)
    subst hnil
    cases f₂ <;> rfl
  | succ f ih =>
    intro f₂ l h1 h2
    cases l with
    | nil => cases f₂ <;> rfl
    | cons a u =>
      cases u with
      | nil => cases f₂ <;> rfl
      | cons b rest =>
        simp only [List.length_cons] at h1 h2
        cases f₂ with
        | zero => omega
        | succ f₂' =>
          simp only [replace2F]
          split
          · rw [ih f₂' rest (by omega) (by omega)]
          · rw [ih f₂' (b :: rest) (by simp; omega) (by simp; omega)]

theorem replace2_cons₂ (p q r a b : Char) (rest : List Char) :
    replace2 p q r (a :: b :: rest) =
      if a = p ∧ b = q then r :: replace2 p q r rest
      else a :: replace2 p q r (b :: rest) := by
  show replace2F p q r (rest.length + 1 + 1) (a :: b :: rest) = _
  simp only [replace2F]
  split
  · rw [replace2F_congr p q r (rest.length + 1) rest.length rest (by omega)
      le_rfl]
    rfl
  · rfl

theorem replace2_cons_pos (p q r : Char) (rest : List Char) :
    replace2 p q r (p :: q :: rest) = r :: replace2 p q r rest := by
  rw [replace2_cons₂, if_pos ⟨rfl, rfl⟩]

theorem replace2_cons_of_ne (p q r a : Char) (u : List Char)
    (h : a ≠ p ∨ u.head? ≠ some q) :
    replace2 p q r (a :: u) = a :: replace2 p q r u := by
  cases u with
  | nil => rfl
  | cons b rest =>
    rw [replace2_cons₂]
    have hcond : ¬(a = p ∧ b = q) := by
      rcases h with h | h
      · tauto
      · simp only [List.head?_cons, ne_eq, Option.some_inj] at h
        tauto
    rw [if_neg hcond]

theorem replace2_head? (p q r : Char) (l : List Char) :
    (replace2 p q r l).head? = l.head? ∨ (replace2 p q r l).head? = some r := by
  cases l with
  | nil => left; rfl
  | cons a u =>
    cases u with
    | nil => left; rfl
    | cons b rest =>
      rw [replace2_cons₂]
      split
      · right; simp
      · left; simp

theorem substEsc_cons₂ (a b : Char) (rest : List Char) :
    substEscapesSpec (a :: b :: rest) =
      if a = BSLASH ∧ b = Char.ofNat 0x6e then NLCHAR :: substEscapesSpec rest
      else if a = BSLASH ∧ b = Char.ofNat 0x74 then TABCHAR :: substEscapesSpec rest
      else if a = BSLASH ∧ b = Char.ofNat 0x62 then BSCHAR :: substEscapesSpec rest
      else a :: substEscapesSpec (b :: rest) := by
  rw [substEscapesSpec]

theorem substEsc_cons_of_ne (a : Char) (u : List Char) (h : a ≠ BSLASH) :
    substEscapesSpec (a :: u) = a :: substEscapesSpec u := by
  cases u with
  | nil => simp [substEscapesSpec]
  | cons b rest =>
    rw [substEsc_cons₂]
    simp [h]

theorem substEsc_cons_n (rest : List Char) :
    substEscapesSpec (BSLASH :: Char.ofNat 0x6e :: rest) =
      NLCHAR :: substEscapesSpec rest := by
  rw [substEsc_cons₂, if_pos ⟨rfl, rfl⟩]

theorem substEsc_cons_t (rest : List Char) :
    substEscapesSpec (BSLASH :: Char.ofNat 0x74 :: rest) =
      TABCHAR :: substEscapesSpec rest := by
  rw [substEsc_cons₂, if_neg (by decide), if_pos ⟨rfl, rfl⟩]

theorem substEsc_cons_b (rest : List Char) :
    substEscapesSpec (BSLASH :: Char.ofNat 0x62 :: rest) =
      BSCHAR :: substEscapesSpec rest := by
  rw [substEsc_cons₂, if_neg (by decide), if_neg (by decide), if_pos ⟨rfl, rfl⟩]

theorem substEsc_cons_bslash (b : Char) (rest : List Char)
    (hn : b ≠ Char.ofNat 0x6e) (ht : b ≠ Char.ofNat 0x74)
    (hb : b ≠ Char.ofNat 0x62) :
    substEscapesSpec (BSLASH :: b :: rest) =
      BSLASH :: substEscapesSpec (b :: rest) := by
  rw [substEsc_cons₂, if_neg (by tauto), if_neg (by tauto), if_neg (by tauto)]

theorem escapes_aux : ∀ (n : ℕ) (l : List Char), l.length ≤ n →
    replace2 BSLASH (Char.ofNat 0x62) BSCHAR
      (replace2 BSLASH (Char.ofNat 0x74) TABCHAR
        (replace2 BSLASH (Char.ofNat 0x6e) NLCHAR l)) = substEscapesSpec l := by
  intro n
  induction n with
  | zero =>
    intro l hl
    have hnil : l = [] := List.length_eq_zero.mp (by omega)
    subst hnil
    simp only [substEscapesSpec]
    rfl
  | succ n ih =>
    intro l hl
    cases l with
    | nil => (simp only [substEscapesSpec]; rfl)
    | cons a u =>
      cases u with
      | nil => (simp only [substEscapesSpec]; rfl)
      | cons b rest =>
        simp only [List.length_cons] at hl
        by_cases ha : a = BSLASH
        · subst ha
          by_cases hbn : b = Char.ofNat 0x6e
          · subst hbn
            rw [replace2_cons_pos BSLASH (Char.ofNat 0x6e) NLCHAR rest,
              replace2_cons_of_ne BSLASH (Char.ofNat 0x74) TABCHAR NLCHAR _
                (Or.inl (by decide)),
              replace2_cons_of_ne BSLASH (Char.ofNat 0x62) BSCHAR NLCHAR _
                (Or.inl (by decide)),
              substEsc_cons_n rest, ih rest (by omega)]
          · by_cases hbt : b = Char.ofNat 0x74
            · subst hbt
              rw [replace2_cons_of_ne BSLASH (Char.ofNat 0x6e) NLCHAR BSLASH
                  (Char.ofNat 0x74 :: rest)
                  (Or.inr (by simp only [List.head?_cons, ne_eq, Option.some_inj]; decide)),
                replace2_cons_of_ne BSLASH (Char.ofNat 0x6e) NLCHAR
                  (Char.ofNat 0x74) rest (Or.inl (by decide)),
                replace2_cons_pos BSLASH (Char.ofNat 0x74) TABCHAR _,
                replace2_cons_of_ne BSLASH (Char.ofNat 0x62) BSCHAR TABCHAR _
                  (Or.inl (by decide)),
                substEsc_cons_t rest, ih rest (by omega)]
            · by_cases hbb : b = Char.ofNat 0x62
              · subst hbb
                rw [replace2_cons_of_ne BSLASH (Char.ofNat 0x6e) NLCHAR BSLASH
                    (Char.ofNat 0x62 :: rest)
                    (Or.inr (by simp only [List.head?_cons, ne_eq, Option.some_inj]; decide)),
                  replace2_cons_of_ne BSLASH (Char.ofNat 0x6e) NLCHAR
                    (Char.ofNat 0x62) rest (Or.inl (by decide)),
                  replace2_cons_of_ne BSLASH (Char.ofNat 0x74) TABCHAR BSLASH
                    (Char.ofNat 0x62 ::
                      replace2 BSLASH (Char.ofNat 0x6e) NLCHAR rest)
                    (Or.inr (by simp only [List.head?_cons, ne_eq, Option.some_inj]; decide)),
                  replace2_cons_of_ne BSLASH (Char.ofNat 0x74) TABCHAR
                    (Char.ofNat 0x62) _ (Or.inl (by decide)),
                  replace2_cons_pos BSLASH (Char.ofNat 0x62) BSCHAR _,
                  substEsc_cons_b rest, ih rest (by omega)]
              · by_cases hbB : b = BSLASH
                · subst hbB
                  rw [replace2_cons_of_ne BSLASH (Char.ofNat 0x6e) NLCHAR BSLASH
                      (BSLASH :: rest)
                      (Or.inr (by simp only [List.head?_cons, ne_eq, Option.some_inj]; decide))]
                  have hv := replace2_head? BSLASH (Char.ofNat 0x6e) NLCHAR
                    (BSLASH :: rest)
                  rw [replace2_cons_of_ne BSLASH (Char.ofNat 0x74) TABCHAR BSLASH
                    (replace2 BSLASH (Char.ofNat 0x6e) NLCHAR (BSLASH :: rest))
                    (Or.inr (by
                      rcases hv with hv | hv <;> rw [hv] <;>
                        simp only [List.head?_cons, ne_eq, Option.some_inj] <;>
                        decide))]
                  have hw := replace2_head? BSLASH (Char.ofNat 0x74) TABCHAR
                    (replace2 BSLASH (Char.ofNat 0x6e) NLCHAR (BSLASH :: rest))
                  rw [replace2_cons_of_ne BSLASH (Char.ofNat 0x62) BSCHAR BSLASH
                    (replace2 BSLASH (Char.ofNat 0x74) TABCHAR
                      (replace2 BSLASH (Char.ofNat 0x6e) NLCHAR (BSLASH :: rest)))
                    (Or.inr (by
                      rcases hw with hw | hw
                      · rw [hw]
                        rcases hv with hv | hv
                        · rw [hv]
                          simp only [List.head?_cons, ne_eq, Option.some_inj]
                          decide
                        · rw [hv]
                          simp only [ne_eq, Option.some_inj]
                          decide
                      · rw [hw]
                        simp only [ne_eq, Option.some_inj]
                        decide))]
                  rw [substEsc_cons_bslash BSLASH rest (by decide) (by decide)
                      (by decide),
                    ih (BSLASH :: rest) (by simp; omega)]
                · rw [replace2_cons_of_ne BSLASH (Char.ofNat 0x6e) NLCHAR BSLASH
                      (b :: rest) (Or.inr (by simp [hbn])),
                    replace2_cons_of_ne BSLASH (Char.ofNat 0x6e) NLCHAR b rest
                      (Or.inl hbB),
                    replace2_cons_of_ne BSLASH (Char.ofNat 0x74) TABCHAR BSLASH
                      (b :: replace2 BSLASH (Char.ofNat 0x6e) NLCHAR rest)
                      (Or.inr (by simp [hbt])),
                    replace2_cons_of_ne BSLASH (Char.ofNat 0x74) TABCHAR b _
                      (Or.inl hbB),
                    replace2_cons_of_ne BSLASH (Char.ofNat 0x62) BSCHAR BSLASH
                      (b :: replace2 BSLASH (Char.ofNat 0x74) TABCHAR
                        (replace2 BSLASH (Char.ofNat 0x6e) NLCHAR rest))
                      (Or.inr (by simp [hbb])),
                    replace2_cons_of_ne BSLASH (Char.ofNat 0x62) BSCHAR b _
                      (Or.inl hbB),
                    substEsc_cons_bslash b rest hbn hbt hbb,
                    substEsc_cons_of_ne b _ hbB, ih rest (by omega)]
        · rw [replace2_cons_of_ne BSLASH (Char.ofNat 0x6e) NLCHAR a (b :: rest)
              (Or.inl ha),
            replace2_cons_of_ne BSLASH (Char.ofNat 0x74) TABCHAR a _
              (Or.inl ha),
            replace2_cons_of_ne BSLASH (Char.ofNat 0x62) BSCHAR a _
              (Or.inl ha),
            substEsc_cons_of_ne a _ ha, ih (b :: rest) (by simp; omega)]

theorem process_escapes_eq_spec (l : List Char) :
    process_escapes l = substEscapesSpec l :=
  escapes_aux l.length l le_rfl

theorem dragStepSpec_bound_pos (a : ℤ) (s : ℕ) (i : ℕ) (h0 : 0 ≤ a)
    (h : a ≤ (s : ℤ)) : 0 ≤ dragStepSpec a s i ∧ dragStepSpec a s i ≤ 1 := by
  rcases Nat.eq_zero_or_pos s with hs | hs
  · subst hs
    have ha : a = 0 := le_antisymm (by exact_mod_cast h) h0
    subst ha
    unfold dragStepSpec
    simp
  · have hsz : (0 : ℤ) < (s : ℤ) := by exact_mod_cast hs
    have hnn1 : (0 : ℤ) ≤ ((i : ℤ) + 1) * a := by positivity
    have hnn0 : (0 : ℤ) ≤ (i : ℤ) * a := by positivity
    unfold dragStepSpec
    rw [Int.tdiv_eq_ediv hnn1 (le_of_lt hsz), Int.tdiv_eq_ediv hnn0 (le_of_lt hsz)]
    constructor
    · have hmono := Int.ediv_le_ediv hsz
        (show (i : ℤ) * a ≤ ((i : ℤ) + 1) * a by nlinarith)
      omega
    · have hle : ((i : ℤ) + 1) * a ≤ (i : ℤ) * a + 1 * (s : ℤ) := by nlinarith
      have hstep := Int.ediv_le_ediv hsz hle
      rw [Int.add_mul_ediv_right _ 1 (ne_of_gt hsz)] at hstep
      omega

theorem dragStepSpec_neg (a : ℤ) (s : ℕ) (i : ℕ) :
    dragStepSpec (-a) s i = -(dragStepSpec a s i) := by
  unfold dragStepSpec
  rw [show ((i : ℤ) + 1) * -a = -(((i : ℤ) + 1) * a) by ring,
    show (i : ℤ) * -a = -((i : ℤ) * a) by ring,
    Int.neg_tdiv, Int.neg_tdiv]
  ring

theorem dragStepSpec_bound (a : ℤ) (s : ℕ) (i : ℕ) (h : a.natAbs ≤ s) :
    -1 ≤ dragStepSpec a s i ∧ dragStepSpec a s i ≤ 1 := by
  rcases le_or_lt 0 a with ha | ha
  · have hle : a ≤ (s : ℤ) := by
      rw [← Int.natAbs_of_nonneg ha]
      exact_mod_cast h
    have hb := dragStepSpec_bound_pos a s i ha hle
    omega
  · have hb0 : 0 ≤ -a := by omega
    have hle : -a ≤ (s : ℤ) := by
      rw [← Int.natAbs_of_nonneg hb0, Int.natAbs_neg]
      exact_mod_cast h
    have hpos := dragStepSpec_bound_pos (-a) s i hb0 hle
    have hneg := dragStepSpec_neg (-a) s i
    rw [neg_neg] at hneg
    omega

theorem send_mouse_report_zero (bits : ℕ) :
    send_mouse_report bits 0 0 0 = [0x04, bits, 0x00, 0x00, 0x00] := rfl

/-! ## Claim theorems -/

/-- C5: for every integer v, `_clamp_movement v` lies in [-127, 127] and is
the identity on that range; `scroll 200` sends a single report whose wheel
byte is the unsigned encoding 0x7F of 127, not 200 mod 256 (= 200); and
`move` clamps each axis independently inside the one report it sends. -/
theorem C5_clamp_and_scroll :
    (∀ v : ℤ, -127 ≤ clamp_movement v ∧ clamp_movement v ≤ 127) ∧
    (∀ v : ℤ, -127 ≤ v → v ≤ 127 → clamp_movement v = v) ∧
    scroll 200 = [[0x04, 0x00, 0x00, 0x00, 0x7F]] ∧
    toByte 200 ≠ 0x7F ∧
    (∀ x y : ℤ, move x y =
      [[0x04, 0x00, toByte (clamp_movement x), toByte (clamp_movement y),
        0x00]]) := by
  refine ⟨?_, ?_, ?_, ?_, ?_⟩
  · intro v
    unfold clamp_movement
    omega
  · intro v h1 h2
    unfold clamp_movement
    omega
  · decide
  · decide
  · intro x y
    rfl

theorem C5_witness :
    (-127 ≤ clamp_movement 300 ∧ clamp_movement 300 ≤ 127) ∧
    clamp_movement 55 = 55 :=
  ⟨C5_clamp_and_scroll.1 300,
    C5_clamp_and_scroll.2.1 55 (by decide) (by decide)⟩

/-- C6: for every button name outside left/right/middle, `click` and
`drag` fail with the validation error and produce no report at all, and
for every count and valid button, `click` emits exactly count
press/release pairs (press carries the button bit, release carries 0,
all deltas zero); `click "right" 3` gives exactly 6 reports. -/
theorem C6_button_validation :
    (∀ b : String, b ≠ "left" → b ≠ "right" → b ≠ "middle" →
      (∀ count, click b count = .error "Invalid button") ∧
      ∀ x y : ℤ, drag x y b = .error "Invalid button") ∧
    (∀ (b : String) (bits : ℕ) (count : ℕ), button_to_bits b = .ok bits →
      click b count = .ok ((List.replicate count
        [[0x04, bits, 0x00, 0x00, 0x00],
         [0x04, 0x00, 0x00, 0x00, 0x00]]).flatten) ∧
      ∀ l, click b count = .ok l → l.length = 2 * count) ∧
    click "right" 3 = .ok
      [[0x04, 0x02, 0x00, 0x00, 0x00], [0x04, 0x00, 0x00, 0x00, 0x00],
       [0x04, 0x02, 0x00, 0x00, 0x00], [0x04, 0x00, 0x00, 0x00, 0x00],
       [0x04, 0x02, 0x00, 0x00, 0x00], [0x04, 0x00, 0x00, 0x00, 0x00]] := by
  refine ⟨?_, ?_, rfl⟩
  · intro b h1 h2 h3
    have hb : button_to_bits b = .error "Invalid button" := by
      unfold button_to_bits
      rw [if_neg h1, if_neg h2, if_neg h3]
    constructor
    · intro count
      unfold click
      rw [hb]
      rfl
    · intro x y
      unfold drag
      rw [hb]
      rfl
  · intro b bits count hb
    have hok : click b count = .ok ((List.replicate count
        [[0x04, bits, 0x00, 0x00, 0x00],
         [0x04, 0x00, 0x00, 0x00, 0x00]]).flatten) := by
      unfold click
      rw [hb]
      rfl
    refine ⟨hok, ?_⟩
    intro l hl
    rw [hok] at hl
    have hl2 : (List.replicate count
        [[0x04, bits, 0x00, 0x00, 0x00],
         [0x04, 0x00, 0x00, 0x00, 0x00]]).flatten = l := by
      injection hl
    rw [← hl2]
    simp [List.length_flatten, List.map_replicate, List.sum_replicate,
      smul_eq_mul, Nat.mul_comm]

theorem C6_witness :
    click "up" 2 = .error "Invalid button" ∧
    drag 1 1 "up" = .error "Invalid button" ∧
    click "left" 0 = .ok [] :=
  ⟨(C6_button_validation.1 "up" (by decide) (by decide) (by decide)).1 2,
    (C6_button_validation.1 "up" (by decide) (by decide) (by decide)).2 1 1,
    (C6_button_validation.2.1 "left" BUTTON_LEFT 0 rfl).1⟩

/-- C8: the character keymap is injective into (keycode, needsShift)
pairs: the value list of KEY_MAP has no duplicates, and decoding the
encoded pair of any KEY_MAP entry against the same table recovers
exactly that entry's character. -/
theorem C8_keymap_injective :
    (KEY_MAP.map (fun e => e.2)).Nodup ∧
    ∀ e ∈ KEY_MAP,
      (KEY_MAP.find? (fun e2 => e2.2 == e.2)).map (fun e2 => e2.1) =
        some e.1 := by
  decide

/-- C9: every report built by an encoder has exactly its schema length
and leading report ID (keyboard 9/0x01, consumer 4/0x02, system 2/0x03,
mouse 5/0x04), and every named consumer or system action sends a press
report that sets exactly one bit in exactly one payload byte, followed
by the all-zero release report of the same length. -/
theorem C9_report_framing :
    (∀ (bits : ℕ) (x y w : ℤ), (send_mouse_report bits x y w).length = 5 ∧
      (send_mouse_report bits x y w).head? = some 0x04) ∧
    (∀ (k m : ℤ) (l : List (List ℕ)), send_key k m = .ok l →
      l.length = 2 ∧ ∀ r ∈ l, r.length = 9 ∧ r.head? = some 0x01) ∧
    (∀ b1 b2 b3 : ℕ, ∀ r ∈ send_consumer_key b1 b2 b3,
      r.length = 4 ∧ r.head? = some 0x02) ∧
    (∀ b : ℕ, ∀ r ∈ send_system_key b, r.length = 2 ∧ r.head? = some 0x03) ∧
    (∀ act ∈ [volume_up, volume_down, mute, play_pause, next_track,
        prev_track, stop_playback, brightness_up, brightness_down, eject],
      act.length = 2 ∧ (act.headD []).length = 4 ∧
      (((act.headD []).drop 1).map popCount8).sum = 1 ∧
      act[1]? = some [0x02, 0x00, 0x00, 0x00]) ∧
    (∀ act ∈ [power, sleep_key, wake],
      act.length = 2 ∧ (act.headD []).length = 2 ∧
      (((act.headD []).drop 1).map popCount8).sum = 1 ∧
      act[1]? = some [0x03, 0x00]) := by
  refine ⟨?_, ?_, ?_, ?_, ?_, ?_⟩
  · intro bits x y w
    exact ⟨rfl, rfl⟩
  · intro k m l h
    unfold send_key bytesOf at h
    split at h
    · rw [if_pos (by decide)] at h
      have hl : l = [[(0x01 : ℤ), m, 0x00, k, 0, 0, 0, 0, 0].map Int.toNat,
          [(0x01 : ℤ), 0, 0, 0, 0, 0, 0, 0, 0].map Int.toNat] := by
        have := h
        injection this with h2
        exact h2.symm
      subst hl
      refine ⟨rfl, ?_⟩
      intro r hr
      simp only [List.mem_cons, List.not_mem_nil, or_false] at hr
      rcases hr with rfl | rfl
      · exact ⟨by simp, by simp⟩
      · exact ⟨by simp, by simp⟩
    · exact Except.noConfusion h
  · intro b1 b2 b3 r hr
    simp only [send_consumer_key, List.mem_cons, List.not_mem_nil, or_false]
      at hr
    rcases hr with rfl | rfl
    · exact ⟨rfl, rfl⟩
    · exact ⟨rfl, rfl⟩
  · intro b r hr
    simp only [send_system_key, List.mem_cons, List.not_mem_nil, or_false]
      at hr
    rcases hr with rfl | rfl
    · exact ⟨rfl, rfl⟩
    · exact ⟨rfl, rfl⟩
  · decide
  · decide

theorem C9_witness :
    ([[(0x01 : ℤ), 9, 0x00, 4, 0, 0, 0, 0, 0].map Int.toNat,
      [(0x01 : ℤ), 0, 0, 0, 0, 0, 0, 0, 0].map Int.toNat]).length = 2 :=
  (C9_report_framing.2.1 4 9 _ rfl).1

/-- C10: `send_key` with a keycode or modifier outside [0, 255] fails
while building the press report, before anything is written, and inside
the byte range it succeeds with the documented report pair. -/
theorem C10_send_key_byte_range :
    (∀ k m : ℤ, (k < 0 ∨ 255 < k ∨ m < 0 ∨ 255 < m) →
      send_key k m = .error "bytes must be in range(0, 256)") ∧
    (∀ k m : ℤ, 0 ≤ k → k ≤ 255 → 0 ≤ m → m ≤ 255 →
      send_key k m = .ok [[0x01, m.toNat, 0x00, k.toNat, 0, 0, 0, 0, 0],
        [0x01, 0, 0, 0, 0, 0, 0, 0, 0]]) := by
  constructor
  · intro k m hkm
    have hcond : ¬ ∀ v ∈ [(0x01 : ℤ), m, 0x00, k, 0, 0, 0, 0, 0],
        0 ≤ v ∧ v < 256 := by
      intro hall
      have hk := hall k (by simp)
      have hm := hall m (by simp)
      omega
    unfold send_key bytesOf
    rw [if_neg hcond]
    rfl
  · intro k m hk0 hk1 hm0 hm1
    have hcond : ∀ v ∈ [(0x01 : ℤ), m, 0x00, k, 0, 0, 0, 0, 0],
        0 ≤ v ∧ v < 256 := by
      intro v hv
      simp only [List.mem_cons, List.not_mem_nil, or_false] at hv
      rcases hv with rfl | rfl | rfl | rfl | rfl | rfl | rfl | rfl | rfl <;>
        constructor <;> omega
    unfold send_key bytesOf
    rw [if_pos hcond, if_pos (by decide)]
    rfl

theorem C10_witness :
    send_key 300 0 = .error "bytes must be in range(0, 256)" ∧
    send_key 4 (-1) = .error "bytes must be in range(0, 256)" ∧
    send_key 4 2 = .ok [[0x01, 2, 0x00, 4, 0, 0, 0, 0, 0],
      [0x01, 0, 0, 0, 0, 0, 0, 0, 0]] :=
  ⟨C10_send_key_byte_range.1 300 0 (Or.inr (Or.inl (by decide))),
    C10_send_key_byte_range.1 4 (-1) (Or.inr (Or.inr (Or.inl (by decide)))),
    C10_send_key_byte_range.2 4 2 (by decide) (by decide) (by decide)
      (by decide)⟩

/-- C1 (amended): `drag` splits the displacement into
`steps = max(|x|, |y|)` move reports (1 when x = y = 0).  Under the exact
truncating-integer-division reading of the spec formula the per-step
deltas telescope, so their cumulative sum equals exactly the total, and
the code's binary64 evaluation agrees with that formula on a dominant
axis (|a| = steps ≤ 2^53); for other inputs the float evaluation can
deviate from the formula and its sum can miss the total. -/
theorem C1_drag_interpolation_amended :
    (∀ x y : ℤ, 0 < dragSteps x y ∧
      (¬(x = 0 ∧ y = 0) → dragSteps x y = max x.natAbs y.natAbs) ∧
      (x = 0 ∧ y = 0 → dragSteps x y = 1)) ∧
    (∀ (a : ℤ) (s : ℕ), 0 < s →
      ((List.range s).map (dragStepSpec a s)).sum = a) ∧
    (∀ (a : ℤ) (s i : ℕ), a.natAbs = s → s ≤ 2 ^ 53 → i < s →
      dragStepFloat a s i = dragStepSpec a s i) := by
  refine ⟨?_, dragStepSpec_sum, dragStepFloat_dominant⟩
  intro x y
  unfold dragSteps
  rcases Nat.eq_zero_or_pos (max x.natAbs y.natAbs) with h | h
  · obtain ⟨hx, hy⟩ := Nat.max_eq_zero_iff.mp h
    have hx0 : x = 0 := Int.natAbs_eq_zero.mp hx
    have hy0 : y = 0 := Int.natAbs_eq_zero.mp hy
    subst hx0
    subst hy0
    simp
  · rw [if_neg (Nat.pos_iff_ne_zero.mp h)]
    refine ⟨h, fun _ => rfl, ?_⟩
    rintro ⟨rfl, rfl⟩
    simp at h

theorem C1_witness :
    0 < dragSteps 3 4 ∧
    ((List.range 5).map (dragStepSpec 5 5)).sum = 5 ∧
    dragStepFloat (-7) 7 2 = dragStepSpec (-7) 7 2 :=
  ⟨(C1_drag_interpolation_amended.1 3 4).1,
    C1_drag_interpolation_amended.2.1 5 5 (by decide),
    C1_drag_interpolation_amended.2.2 (-7) 7 2 (by decide) (by decide)
      (by decide)⟩

/-- C1 counterexample: at drag(x = -15, y = 22) the code's float-computed
x-deltas sum to -14, not -15, and the delta of step 21 is 0 where the
spec's truncating formula gives -1; the corresponding move report on the
wire carries x-byte 0, not the encoding of -1. -/
theorem C1_counterexample :
    dragSteps (-15) 22 = 22 ∧
    (dragDeltas (-15) 22).sum = -14 ∧
    (dragDeltas (-15) 22).sum ≠ -15 ∧
    (dragDeltas (-15) 22)[21]? = some 0 ∧
    dragStepSpec (-15) 22 21 = -1 ∧
    (drag (-15) 22 "left").toOption.bind (fun l => l[21 + 1]?) =
      some [0x04, 0x01, 0x00, 0x01, 0x00] := by
  refine ⟨by decide, by decide, by decide, by decide, by decide, ?_⟩
  have h := drag_move_report (-15) 22 "left" BUTTON_LEFT rfl 21 (by decide)
  rw [h]
  decide

/-- C2 (amended): under the exact truncating semantics every per-step
delta lies in {-1, 0, 1} and hence within [-127, 127]; moreover every
mouse report re-clamps each axis through `_clamp_movement`, so a step
delta is never sent as a wrapped byte.  (The float-computed delta itself
can exceed 127 for astronomically large displacements, see the
counterexample, but the wire byte is then the clamped encoding.) -/
theorem C2_step_clamp_amended :
    (∀ (a : ℤ) (s i : ℕ), a.natAbs ≤ s →
      -127 ≤ dragStepSpec a s i ∧ dragStepSpec a s i ≤ 127) ∧
    (∀ v : ℤ, -127 ≤ clamp_movement v ∧ clamp_movement v ≤ 127) ∧
    (∀ (bits : ℕ) (x y w : ℤ), send_mouse_report bits x y w =
      [0x04, bits, toByte (clamp_movement x), toByte (clamp_movement y),
        toByte (clamp_movement w)]) := by
  refine ⟨?_, ?_, fun _ _ _ _ => rfl⟩
  · intro a s i h
    have hb := dragStepSpec_bound a s i h
    omega
  · intro v
    unfold clamp_movement
    omega

theorem C2_witness :
    (-127 ≤ dragStepSpec 5 9 3 ∧ dragStepSpec 5 9 3 ≤ 127) ∧
    (-127 ≤ clamp_movement 999 ∧ clamp_movement 999 ≤ 127) :=
  ⟨C2_step_clamp_amended.1 5 9 3 (by decide), C2_step_clamp_amended.2.1 999⟩

/-- C2 counterexample: at drag(x = 2^60 - 1, y = 2^60), step 2^59 + 64,
the code's float-computed x-delta is 128, outside [-127, 127], and the
move report actually sent carries the clamped byte 0x7F on both axes:
the intermediate drag step IS altered by clamping, contradicting the
claim that deltas always stay in range and are never clamped. -/
theorem C2_counterexample :
    dragStepFloat (2 ^ 60 - 1) (2 ^ 60) (2 ^ 59 + 64) = 128 ∧
    ¬(dragStepFloat (2 ^ 60 - 1) (2 ^ 60) (2 ^ 59 + 64) ≤ 127) ∧
    clamp_movement (dragStepFloat (2 ^ 60 - 1) (2 ^ 60) (2 ^ 59 + 64)) ≠
      dragStepFloat (2 ^ 60 - 1) (2 ^ 60) (2 ^ 59 + 64) ∧
    (drag (2 ^ 60 - 1) (2 ^ 60) "left").toOption.bind
      (fun l => l[(2 ^ 59 + 64) + 1]?) =
      some [0x04, 0x01, 0x7F, 0x7F, 0x00] := by
  refine ⟨by decide, by decide, by decide, ?_⟩
  have h := drag_move_report (2 ^ 60 - 1) (2 ^ 60) "left" BUTTON_LEFT rfl
    (2 ^ 59 + 64) (by decide)
  rw [h]
  decide

/-- C3: for every valid button, `drag x y button` returns exactly
steps + 2 reports: the press report with the button bit and zero deltas,
then steps move reports each carrying the held button bit and the two
per-axis step deltas, then the all-zero release; in particular
drag(10, 3, left) sends 12 reports whose x-deltas sum to 10 and y-deltas
sum to 3. -/
theorem C3_drag_sequence :
    (∀ (x y : ℤ) (button : String) (bits : ℕ),
      button_to_bits button = .ok bits →
      ∀ l, drag x y button = .ok l →
        l.length = dragSteps x y + 2 ∧
        l.head? = some [0x04, bits, 0x00, 0x00, 0x00] ∧
        l.getLast? = some [0x04, 0x00, 0x00, 0x00, 0x00] ∧
        ∀ i, i < dragSteps x y → l[i + 1]? =
          some (send_mouse_report bits (dragStepFloat x (dragSteps x y) i)
            (dragStepFloat y (dragSteps x y) i) 0)) ∧
    (drag 10 3 "left").map List.length = .ok 12 ∧
    (dragDeltas 10 (dragSteps 10 3)).sum = 10 ∧
    (dragDeltas 3 (dragSteps 10 3)).sum = 3 := by
  refine ⟨?_, rfl, by decide, by decide⟩
  intro x y button bits hb l hl
  have hstruct : drag x y button = .ok
      ([send_mouse_report bits 0 0 0] ++
        ((List.range (dragSteps x y)).map fun i =>
          send_mouse_report bits (dragStepFloat x (dragSteps x y) i)
            (dragStepFloat y (dragSteps x y) i) 0) ++
        [send_mouse_report 0 0 0 0]) := by
    unfold drag
    rw [hb]
    rfl
  rw [hstruct] at hl
  have hl2 : ([send_mouse_report bits 0 0 0] ++
      ((List.range (dragSteps x y)).map fun i =>
        send_mouse_report bits (dragStepFloat x (dragSteps x y) i)
          (dragStepFloat y (dragSteps x y) i) 0) ++
      [send_mouse_report 0 0 0 0]) = l := by
    injection hl
  subst hl2
  refine ⟨?_, ?_, ?_, ?_⟩
  · simp
  · rw [send_mouse_report_zero]
    simp
  · rw [List.getLast?_concat]
    rfl
  · intro i hi
    have hmr := drag_move_report x y button bits hb i hi
    rw [hstruct] at hmr
    simpa [Except.toOption] using hmr

theorem C3_witness :
    ([[0x04, 0x01, 0x00, 0x00, 0x00],
      [0x04, 0x01, 0x01, 0x00, 0x00], [0x04, 0x01, 0x01, 0x00, 0x00],
      [0x04, 0x01, 0x01, 0x00, 0x00], [0x04, 0x01, 0x01, 0x01, 0x00],
      [0x04, 0x01, 0x01, 0x00, 0x00], [0x04, 0x01, 0x01, 0x00, 0x00],
      [0x04, 0x01, 0x01, 0x01, 0x00], [0x04, 0x01, 0x01, 0x00, 0x00],
      [0x04, 0x01, 0x01, 0x00, 0x00], [0x04, 0x01, 0x01, 0x01, 0x00],
      [0x04, 0x00, 0x00, 0x00, 0x00]] : List (List ℕ)).length =
      dragSteps 10 3 + 2 :=
  (C3_drag_sequence.1 10 3 "left" BUTTON_LEFT rfl _ rfl).1

/-- C4: the escape pre-pass of `type_string` (three sequential
str.replace calls) is exactly one left-to-right, non-overlapping
substitution pass over the three two-character escapes, and typing the
two-character string backslash-n sends exactly one press/release pair
with the newline keycode 0x28. -/
theorem C4_escape_prepass :
    (∀ text : List Char, process_escapes text = substEscapesSpec text) ∧
    type_string [BSLASH, Char.ofNat 0x6e] =
      .ok [TypeEvent.sent [0x01, 0x00, 0x00, 0x28, 0x00, 0x00, 0x00, 0x00,
          0x00],
        TypeEvent.sent [0x01, 0x00, 0x00, 0x00, 0x00, 0x00, 0x00, 0x00,
          0x00]] :=
  ⟨process_escapes_eq_spec, rfl⟩

/-- C7: `type_string` processes the post-substitution characters strictly
in order: an unmapped character produces a warning event and typing
continues, and a mapped character produces exactly its press report
(mapped keycode, left-shift modifier iff needsShift) followed by the
all-zero release report. -/
theorem C7_type_string_events (text : List Char) :
    type_string text = .ok ((process_escapes text).flatMap charEvents) :=
  type_string_loop_eq (process_escapes text)

end Kindavm
